import Mathlib

/-!
Verification of `jaxclust/_src/perturbations.py`.

The module wraps a combinatorial clustering solver `S, ncc -> (A, M)` into a
Monte-Carlo smoothed function `S, ncc, rng -> (A_eps, F_eps, M_eps)` with a
custom JVP rule, and likewise for constrained solvers `S, ncc, C -> (A, M)`.

Shallow embedding conventions:
* a JAX array is `Arr`: a shape (list of dimensions) plus row-major flat data
  over `ℚ` (exact arithmetic in place of floating point);
* `jax.vmap(solver)` over the leading sample axis is a list map over the
  per-sample rows of the flat sample buffer;
* `jnp.einsum` contractions are written out as the corresponding nested sums
  over the same row decompositions that `jnp.reshape(x, (num_samples, -1))`
  produces;
* `jax.grad(noise.log_prob)` is modelled by a `dlog_prob` field of the noise
  capability record, tied to `log_prob` by a `HasDerivAt` invariant;
* a PRNG key is an opaque `ℕ` seed; `noise.sample` is a pure function of the
  seed and the requested shape, as the JAX PRNG contract guarantees.
-/

/-- Flattened inner product `jnp.sum(x * y)`, also one row of the
`jnp.einsum('nd,nd->n', X, Y)` contraction. -/
def dotQ (x y : List ℚ) : ℚ :=
  (List.zipWith (fun a b => a * b) x y).sum

/-- The `k` leading-axis rows (each of flat length `m`) of a row-major flat
buffer: the decomposition used both by `jax.vmap` over axis 0 and by
`jnp.reshape(x, (k, -1))`. -/
def rows (m : ℕ) : List ℚ → ℕ → List (List ℚ)
  | _, 0 => []
  | l, k + 1 => l.take m :: rows m (l.drop m) k

/-- Elementwise sum of a batch of equal-length vectors (the summation part of
`jnp.mean(x, axis=0)`). -/
def sumRows : List (List ℚ) → List ℚ
  | [] => []
  | [v] => v
  | v :: w :: vs => List.zipWith (fun a b => a + b) v (sumRows (w :: vs))

/-- `jnp.mean(x, axis=0)` on a batch of rows: elementwise sum divided by the
number of rows. -/
def meanRows (l : List (List ℚ)) : List ℚ :=
  (sumRows l).map (fun a => a / (l.length : ℚ))

/-- `jnp.mean` of a vector of scalars. -/
def meanQ (l : List ℚ) : ℚ :=
  l.sum / (l.length : ℚ)

/-- A JAX array: shape plus row-major flat data. -/
structure Arr where
  shape : List ℕ
  data : List ℚ
deriving DecidableEq, Repr

/-- Number of scalar entries dictated by the shape. -/
def Arr.size (a : Arr) : ℕ := a.shape.prod

/-- Well-formedness: the flat data has exactly the number of entries the shape
dictates. -/
def Arr.wf (a : Arr) : Prop := a.data.length = a.shape.prod

/-- `jnp.mean(stack, axis=0)` for a stacked batch of arrays given as a list:
the result keeps the per-sample shape. -/
def meanArr : List Arr → Arr
  | [] => ⟨[], []⟩
  | a :: rest => ⟨a.shape, meanRows (a.data :: rest.map Arr.data)⟩

/-- The noise-model capability set of spec 4.1: `sample` and `log_prob`,
together with `dlog_prob` standing for `jax.grad(noise.log_prob)` (tied to
`log_prob` by the `hgrad` invariant) and the contract that `sample` returns an
array of the requested shape. -/
structure Noise where
  sample : ℕ → List ℕ → List ℚ
  log_prob : ℚ → ℚ
  dlog_prob : ℚ → ℚ
  sample_len : ∀ seed shape, (sample seed shape).length = shape.prod
  hgrad : ∀ x : ℚ, HasDerivAt log_prob (dlog_prob x) x

/-- `Normal.log_prob(inputs) = -0.5 * inputs ** 2`, elementwise over `ℚ`. -/
def normal_log_prob (x : ℚ) : ℚ := -(0.5 : ℚ) * x ^ 2

/-- Modelled from the spec: the body of `Normal.sample` is
`jax.random.normal(seed, shape)`, library code outside this repository; the
spec requires only a pure deterministic function of `(seed, shape)` returning
i.i.d. draws of the requested shape.  We model it as an explicit rational
pseudorandom stream of the right length. -/
def normal_sample (seed : ℕ) (shape : List ℕ) : List ℚ :=
  (List.range shape.prod).map (fun i => (((seed + i) % 3 : ℕ) : ℚ) - 1)

/-- The default noise model (class `Normal` of perturbations.py; named
`NormalNoise` here because `Normal` is taken by Mathlib). -/
def NormalNoise : Noise where
  sample := normal_sample
  log_prob := normal_log_prob
  dlog_prob := fun x => -x
  sample_len := by
    intro seed shape
    simp [normal_sample]
  hgrad := by
    intro x
    have h := (hasDerivAt_pow 2 x).const_mul (-(0.5 : ℚ))
    convert h using 1
    push_cast
    ring_nf

/-- The sample batch drawn inside `forward_pert`:
`noise.sample(seed=rng, sample_shape=(num_samples,) + S.shape)` (flat). -/
def fwd_samples (noise : Noise) (num_samples : ℕ) (S : Arr) (rng : ℕ) : List ℚ :=
  noise.sample rng (num_samples :: S.shape)

/-- One perturbed input `S + sigma * z` for a sample row `z` (one slice of the
broadcast `S + sigma * samples`). -/
def perturb (sigma : ℚ) (S : Arr) (z : List ℚ) : Arr :=
  ⟨S.shape, List.zipWith (fun s w => s + sigma * w) S.data z⟩

/-- The per-sample perturbed inputs `S + sigma * samples` of `forward_pert`,
as the list of axis-0 slices fed to the vmapped solver. -/
def fwd_inputs (noise : Noise) (num_samples : ℕ) (sigma : ℚ) (S : Arr) (rng : ℕ) :
    List Arr :=
  (rows S.size (fwd_samples noise num_samples S rng) num_samples).map (perturb sigma S)

/-- `Ak_z, Mk_z = jax.vmap(solver, in_axes=(0, None))(S + sigma * samples, ncc)`
inside `forward_pert`: the stacked per-sample solver outputs. -/
def fwd_batch (solver : Arr → ℕ → Arr × Arr) (noise : Noise) (num_samples : ℕ)
    (sigma : ℚ) (S : Arr) (ncc : ℕ) (rng : ℕ) : List Arr × List Arr :=
  ((fwd_inputs noise num_samples sigma S rng).map (fun X => (solver X ncc).1),
   (fwd_inputs noise num_samples sigma S rng).map (fun X => (solver X ncc).2))

/-- `forward_pert(S, ncc, rng)` of `make_pert_solver` (perturbations.py
lines 32-50): Monte-Carlo means of the perturbed solver outputs and of the
perturbed objective values `einsum('nd,nd->n', S + sigma*samples, Ak_z)`. -/
def forward_pert (solver : Arr → ℕ → Arr × Arr) (num_samples : ℕ) (sigma : ℚ)
    (noise : Noise) (S : Arr) (ncc : ℕ) (rng : ℕ) : Arr × ℚ × Arr :=
  let Ak_z := (fwd_batch solver noise num_samples sigma S ncc rng).1
  let Mk_z := (fwd_batch solver noise num_samples sigma S ncc rng).2
  let Akeps := meanArr Ak_z
  let Mkeps := meanArr Mk_z
  let max_values :=
    List.zipWith (fun X A => dotQ X.data A.data)
      (fwd_inputs noise num_samples sigma S rng) Ak_z
  let Fkeps := meanQ max_values
  (Akeps, Fkeps, Mkeps)

/-- The sample batch redrawn inside `pert_jvp` (perturbations.py lines 56-57):
textually the same draw as in `forward_pert`. -/
def jvp_samples (noise : Noise) (num_samples : ℕ) (S : Arr) (rng : ℕ) : List ℚ :=
  noise.sample rng (num_samples :: S.shape)

/-- The perturbed inputs recomputed inside `pert_jvp`. -/
def jvp_inputs (noise : Noise) (num_samples : ℕ) (sigma : ℚ) (S : Arr) (rng : ℕ) :
    List Arr :=
  (rows S.size (jvp_samples noise num_samples S rng) num_samples).map (perturb sigma S)

/-- `Ak_z, Mk_z` recomputed inside `pert_jvp` by the same vmapped solver call
as in `forward_pert`. -/
def jvp_batch (solver : Arr → ℕ → Arr × Arr) (noise : Noise) (num_samples : ℕ)
    (sigma : ℚ) (S : Arr) (ncc : ℕ) (rng : ℕ) : List Arr × List Arr :=
  ((jvp_inputs noise num_samples sigma S rng).map (fun X => (solver X ncc).1),
   (jvp_inputs noise num_samples sigma S rng).map (fun X => (solver X ncc).2))

/-- `nabla_z_flat = -jax.vmap(jax.grad(noise.log_prob))(samples.reshape([-1]))`
of `pert_jvp`: the negative score of the noise density at each flat sample. -/
def jvp_nabla (noise : Noise) (num_samples : ℕ) (S : Arr) (rng : ℕ) : List ℚ :=
  (jvp_samples noise num_samples S rng).map (fun z => -(noise.dlog_prob z))

/-- `pert_jvp(tangent, _, S, ncc, rng)` of `make_pert_solver` (perturbations.py
lines 53-78).  `vprimal` is the unused primal-output placeholder `_`.  The
`einsum('nd,ne,e->d', Ak_z, nabla_z_flat, tangent)` is written as its nested
sum over the same row decompositions, and the result is reshaped to `S.shape`
(as `jnp.reshape(tangent_flat, S.shape)` demands).  The third output is
`jnp.zeros_like(tangent)`, a dummy since `M` is never differentiated. -/
def pert_jvp (solver : Arr → ℕ → Arr × Arr) (num_samples : ℕ) (sigma : ℚ)
    (noise : Noise) (tangent : Arr) (vprimal : Arr × ℚ × Arr) (S : Arr)
    (ncc : ℕ) (rng : ℕ) : Arr × ℚ × Arr :=
  let Ak_z := (jvp_batch solver noise num_samples sigma S ncc rng).1
  let AkFlat := Ak_z.map Arr.data
  let nablaRows := rows S.size (jvp_nabla noise num_samples S rng) num_samples
  let c : ℚ := 1 / ((num_samples : ℚ) * sigma)
  let tangent_flat := (List.range S.size).map (fun d =>
    c * ((AkFlat.zip nablaRows).map (fun p =>
      ((p.2.zip tangent.data).map (fun q => p.1.getD d 0 * q.1 * q.2)).sum)).sum)
  let jvp_argmax : Arr := ⟨S.shape, tangent_flat⟩
  let pert_argmax := meanArr Ak_z
  let jvp_max := (List.zipWith (fun a b => a * b) pert_argmax.data tangent.data).sum
  (jvp_argmax, jvp_max, ⟨tangent.shape, tangent.data.map (fun _ => 0)⟩)

/-- `make_pert_solver(solver, num_samples, sigma, noise)`: returns
`forward_pert` with `pert_jvp` attached as its custom JVP for the first
argument only (`forward_pert.defjvps(pert_jvp, None, None)`), modelled as the
pair of the forward function and its derivative rule.  No validation of
`num_samples` or `sigma` is performed. -/
def make_pert_solver (solver : Arr → ℕ → Arr × Arr) (num_samples : ℕ)
    (sigma : ℚ) (noise : Noise) :
    (Arr → ℕ → ℕ → Arr × ℚ × Arr) ×
      (Arr → (Arr × ℚ × Arr) → Arr → ℕ → ℕ → Arr × ℚ × Arr) :=
  (forward_pert solver num_samples sigma noise, pert_jvp solver num_samples sigma noise)

/-- The sample batch drawn inside the constrained `forward_pert`
(perturbations.py line 102). -/
def fwd_samples_c (noise : Noise) (num_samples : ℕ) (S : Arr) (rng : ℕ) : List ℚ :=
  noise.sample rng (num_samples :: S.shape)

/-- The perturbed inputs of the constrained `forward_pert`. -/
def fwd_inputs_c (noise : Noise) (num_samples : ℕ) (sigma : ℚ) (S : Arr) (rng : ℕ) :
    List Arr :=
  (rows S.size (fwd_samples_c noise num_samples S rng) num_samples).map (perturb sigma S)

/-- `AkM_z, MkM_z = jax.vmap(csolver, in_axes=(0, None, None))(S + sigma*samples, ncc, C)`
inside the constrained `forward_pert`: `ncc` and `C` are shared across samples. -/
def fwd_batch_c (csolver : Arr → ℕ → Arr → Arr × Arr) (noise : Noise)
    (num_samples : ℕ) (sigma : ℚ) (S : Arr) (ncc : ℕ) (C : Arr) (rng : ℕ) :
    List Arr × List Arr :=
  ((fwd_inputs_c noise num_samples sigma S rng).map (fun X => (csolver X ncc C).1),
   (fwd_inputs_c noise num_samples sigma S rng).map (fun X => (csolver X ncc C).2))

/-- `forward_pert(S, ncc, C, rng)` of `make_pert_csolver` (perturbations.py
lines 100-114). -/
def forward_pert_c (csolver : Arr → ℕ → Arr → Arr × Arr) (num_samples : ℕ)
    (sigma : ℚ) (noise : Noise) (S : Arr) (ncc : ℕ) (C : Arr) (rng : ℕ) :
    Arr × ℚ × Arr :=
  let AkM_z := (fwd_batch_c csolver noise num_samples sigma S ncc C rng).1
  let MkM_z := (fwd_batch_c csolver noise num_samples sigma S ncc C rng).2
  let AkMeps := meanArr AkM_z
  let MkMeps := meanArr MkM_z
  let max_values :=
    List.zipWith (fun X A => dotQ X.data A.data)
      (fwd_inputs_c noise num_samples sigma S rng) AkM_z
  let FkMeps := meanQ max_values
  (AkMeps, FkMeps, MkMeps)

/-- The sample batch redrawn inside the constrained `pert_jvp`
(perturbations.py line 118). -/
def jvp_samples_c (noise : Noise) (num_samples : ℕ) (S : Arr) (rng : ℕ) : List ℚ :=
  noise.sample rng (num_samples :: S.shape)

/-- The perturbed inputs recomputed inside the constrained `pert_jvp`. -/
def jvp_inputs_c (noise : Noise) (num_samples : ℕ) (sigma : ℚ) (S : Arr) (rng : ℕ) :
    List Arr :=
  (rows S.size (jvp_samples_c noise num_samples S rng) num_samples).map (perturb sigma S)

/-- `AkM_z, MkM_z` recomputed inside the constrained `pert_jvp`. -/
def jvp_batch_c (csolver : Arr → ℕ → Arr → Arr × Arr) (noise : Noise)
    (num_samples : ℕ) (sigma : ℚ) (S : Arr) (ncc : ℕ) (C : Arr) (rng : ℕ) :
    List Arr × List Arr :=
  ((jvp_inputs_c noise num_samples sigma S rng).map (fun X => (csolver X ncc C).1),
   (jvp_inputs_c noise num_samples sigma S rng).map (fun X => (csolver X ncc C).2))

/-- The negative score `nabla_z_flat` of the constrained `pert_jvp`. -/
def jvp_nabla_c (noise : Noise) (num_samples : ℕ) (S : Arr) (rng : ℕ) : List ℚ :=
  (jvp_samples_c noise num_samples S rng).map (fun z => -(noise.dlog_prob z))

/-- `pert_jvp(tangent, _, S, ncc, C, rng)` of `make_pert_csolver`
(perturbations.py lines 117-135). -/
def pert_jvp_c (csolver : Arr → ℕ → Arr → Arr × Arr) (num_samples : ℕ)
    (sigma : ℚ) (noise : Noise) (tangent : Arr) (vprimal : Arr × ℚ × Arr)
    (S : Arr) (ncc : ℕ) (C : Arr) (rng : ℕ) : Arr × ℚ × Arr :=
  let AkM_z := (jvp_batch_c csolver noise num_samples sigma S ncc C rng).1
  let AkFlat := AkM_z.map Arr.data
  let nablaRows := rows S.size (jvp_nabla_c noise num_samples S rng) num_samples
  let c : ℚ := 1 / ((num_samples : ℚ) * sigma)
  let tangent_flat := (List.range S.size).map (fun d =>
    c * ((AkFlat.zip nablaRows).map (fun p =>
      ((p.2.zip tangent.data).map (fun q => p.1.getD d 0 * q.1 * q.2)).sum)).sum)
  let jvp_argmax : Arr := ⟨S.shape, tangent_flat⟩
  let pert_argmax := meanArr AkM_z
  let jvp_max := (List.zipWith (fun a b => a * b) pert_argmax.data tangent.data).sum
  (jvp_argmax, jvp_max, ⟨tangent.shape, tangent.data.map (fun _ => 0)⟩)

/-- `make_pert_csolver(csolver, num_samples, sigma, noise, use_bias)`: the
constrained analogue of `make_pert_solver`
(`forward_pert.defjvps(pert_jvp, None, None, None)`).  The `use_bias` flag is
accepted but does not occur in the body; no validation of `num_samples` or
`sigma` is performed. -/
def make_pert_csolver (csolver : Arr → ℕ → Arr → Arr × Arr) (num_samples : ℕ)
    (sigma : ℚ) (noise : Noise) (use_bias : Bool) :
    (Arr → ℕ → Arr → ℕ → Arr × ℚ × Arr) ×
      (Arr → (Arr × ℚ × Arr) → Arr → ℕ → Arr → ℕ → Arr × ℚ × Arr) :=
  (forward_pert_c csolver num_samples sigma noise, pert_jvp_c csolver num_samples sigma noise)

/-- Written from claim C1 / spec 4.2 step 4: `A_eps` is the mean over samples
of the solver's first output on the perturbed inputs `S + sigma * Z`. -/
def spec_A_eps (solver : Arr → ℕ → Arr × Arr) (noise : Noise) (num_samples : ℕ)
    (sigma : ℚ) (S : Arr) (ncc : ℕ) (rng : ℕ) : Arr :=
  meanArr ((fwd_inputs noise num_samples sigma S rng).map (fun X => (solver X ncc).1))

/-- Written from claim C1 / spec 4.2 step 4: `M_eps` is the mean over samples
of the solver's second output. -/
def spec_M_eps (solver : Arr → ℕ → Arr × Arr) (noise : Noise) (num_samples : ℕ)
    (sigma : ℚ) (S : Arr) (ncc : ℕ) (rng : ℕ) : Arr :=
  meanArr ((fwd_inputs noise num_samples sigma S rng).map (fun X => (solver X ncc).2))

/-- Written from claim C1 / spec 4.2 step 5: `F_eps` is the mean over samples
of `sum(flatten(S + sigma*samples) * flatten(Ak_z))`. -/
def spec_F_eps (solver : Arr → ℕ → Arr × Arr) (noise : Noise) (num_samples : ℕ)
    (sigma : ℚ) (S : Arr) (ncc : ℕ) (rng : ℕ) : ℚ :=
  meanQ (((fwd_inputs noise num_samples sigma S rng).zip
      ((fwd_inputs noise num_samples sigma S rng).map (fun X => (solver X ncc).1))).map
    (fun p => dotQ p.1.data p.2.data))

/-- Written from claim C2 / spec 4.2a step 3: elementwise in `d`,
`(1 / (num_samples * sigma)) * Σ_n Ak_z[n][d] * (grad_log_noise[n] ⬝ flatten t)`,
reshaped to `S`'s shape, where `Ak_z` are the per-sample solver outputs
recomputed on `S + sigma * samples` and `grad_log_noise` is the negative
gradient of the noise log-density at each flattened sample. -/
def spec_jvp_A (solver : Arr → ℕ → Arr × Arr) (num_samples : ℕ) (sigma : ℚ)
    (noise : Noise) (tangent : Arr) (S : Arr) (ncc : ℕ) (rng : ℕ) : Arr :=
  ⟨S.shape, (List.range S.size).map (fun d =>
    (1 / ((num_samples : ℚ) * sigma)) *
      (((((jvp_batch solver noise num_samples sigma S ncc rng).1).map Arr.data).zip
          (rows S.size (jvp_nabla noise num_samples S rng) num_samples)).map
        (fun p => p.1.getD d 0 * dotQ p.2 tangent.data)).sum)⟩

/-- Written from claim C2 for the constrained variant. -/
def spec_jvp_A_c (csolver : Arr → ℕ → Arr → Arr × Arr) (num_samples : ℕ)
    (sigma : ℚ) (noise : Noise) (tangent : Arr) (S : Arr) (ncc : ℕ) (C : Arr)
    (rng : ℕ) : Arr :=
  ⟨S.shape, (List.range S.size).map (fun d =>
    (1 / ((num_samples : ℚ) * sigma)) *
      (((((jvp_batch_c csolver noise num_samples sigma S ncc C rng).1).map Arr.data).zip
          (rows S.size (jvp_nabla_c noise num_samples S rng) num_samples)).map
        (fun p => p.1.getD d 0 * dotQ p.2 tangent.data)).sum)⟩

/-- Toy solver for witnesses: returns its input twice (so `A` and `M` both
have `S`'s shape). -/
def idSolver : Arr → ℕ → Arr × Arr := fun X _ => (X, X)

/-- Toy constrained solver for witnesses: ignores its constraint argument and
behaves as `idSolver`. -/
def idCsolver : Arr → ℕ → Arr → Arr × Arr := fun X _ _ => (X, X)

/-- Toy solver whose connectivity output has a shape different from `S`'s:
used to exhibit the shape mismatch of the dummy `M` tangent. -/
def mixSolver : Arr → ℕ → Arr × Arr := fun X _ => (X, ⟨[2], [0, 0]⟩)

/-- Toy solver with a constant connectivity output of shape `[1]`. -/
def constSolver : Arr → ℕ → Arr × Arr := fun X _ => (X, ⟨[1], [0]⟩)

theorem zipWith_eq_map_zip {α β γ : Type} (f : α → β → γ) (l₁ : List α) (l₂ : List β) :
    List.zipWith f l₁ l₂ = (l₁.zip l₂).map (fun p => f p.1 p.2) := by
  induction l₁ generalizing l₂ with
  | nil => simp
  | cons a t ih =>
    cases l₂ with
    | nil => simp
    | cons b t2 => simp [ih]

theorem rows_length (m : ℕ) (l : List ℚ) (k : ℕ) : (rows m l k).length = k := by
  induction k generalizing l with
  | zero => simp [rows]
  | succ k ih => simp [rows, ih]

theorem rows_mem_length (m : ℕ) : ∀ (k : ℕ) (l : List ℚ), l.length = k * m →
    ∀ r ∈ rows m l k, r.length = m := by
  intro k
  induction k with
  | zero =>
    intro l h r hr
    simp [rows] at hr
  | succ k ih =>
    intro l h r hr
    simp only [rows, List.mem_cons] at hr
    rcases hr with hr | hr
    · subst hr
      rw [List.length_take, h, Nat.succ_mul, Nat.min_eq_left (Nat.le_add_left m (k * m))]
    · exact ih (l.drop m) (by rw [List.length_drop, h, Nat.succ_mul]; omega) r hr

theorem sumRows_length {L : ℕ} : ∀ (l : List (List ℚ)), l ≠ [] →
    (∀ v ∈ l, v.length = L) → (sumRows l).length = L
  | [], hne, _ => absurd rfl hne
  | [v], _, h => by simpa [sumRows] using h v (by simp)
  | v :: w :: vs, _, h => by
    have ih := sumRows_length (w :: vs) (by simp)
      (fun u hu => h u (List.mem_cons_of_mem _ hu))
    simp [sumRows, List.length_zipWith, ih, h v (by simp)]

theorem meanArr_shape_len {l : List Arr} {s : List ℕ} {L : ℕ} (hne : l ≠ [])
    (h : ∀ a ∈ l, a.shape = s ∧ a.data.length = L) :
    (meanArr l).shape = s ∧ (meanArr l).data.length = L := by
  cases l with
  | nil => exact absurd rfl hne
  | cons a rest =>
    refine ⟨(h a (by simp)).1, ?_⟩
    have hlen : ∀ v ∈ a.data :: rest.map Arr.data, v.length = L := by
      intro v hv
      simp only [List.mem_cons, List.mem_map] at hv
      rcases hv with hv | ⟨b, hb, hv⟩
      · subst hv
        exact (h a (by simp)).2
      · subst hv
        exact (h b (List.mem_cons_of_mem _ hb)).2
    simp only [meanArr, meanRows, List.length_map]
    exact sumRows_length _ (by simp) hlen

theorem fwd_inputs_length (noise : Noise) (num_samples : ℕ) (sigma : ℚ) (S : Arr)
    (rng : ℕ) : (fwd_inputs noise num_samples sigma S rng).length = num_samples := by
  simp [fwd_inputs, rows_length]

theorem fwd_inputs_mem (noise : Noise) (num_samples : ℕ) (sigma : ℚ) (S : Arr)
    (rng : ℕ) (hS : S.wf) :
    ∀ X ∈ fwd_inputs noise num_samples sigma S rng,
      X.shape = S.shape ∧ X.data.length = S.shape.prod := by
  intro X hX
  simp only [fwd_inputs, List.mem_map] at hX
  obtain ⟨r, hr, rfl⟩ := hX
  refine ⟨rfl, ?_⟩
  have hrlen : r.length = S.size := by
    refine rows_mem_length S.size num_samples (fwd_samples noise num_samples S rng) ?_ r hr
    simp [fwd_samples, noise.sample_len, Arr.size]
  have hSlen : S.data.length = S.shape.prod := hS
  simp [perturb, List.length_zipWith, hrlen, hSlen, Arr.size]

theorem jvp_inputs_eq_fwd_inputs : @jvp_inputs = @fwd_inputs := rfl

theorem inputs_c_eq_fwd_inputs : @fwd_inputs_c = @fwd_inputs := rfl

theorem jvp_inputs_c_eq_fwd_inputs : @jvp_inputs_c = @fwd_inputs := rfl

theorem einsum_row (a : ℚ) (N t : List ℚ) :
    ((N.zip t).map (fun q => a * q.1 * q.2)).sum = a * dotQ N t := by
  have h1 : ((N.zip t).map (fun q => a * q.1 * q.2)) =
      ((N.zip t).map (fun q => a * (q.1 * q.2))) := by
    simp [mul_assoc]
  rw [h1, List.sum_map_mul_left, dotQ, zipWith_eq_map_zip]

/-- C3: the second component of the custom derivative rule (the directional
derivative of `F_eps`) equals the sum over entries of the expected assignment
matrix `A_eps` computed by the forward evaluation on the same `(S, ncc, rng)`
(and `(S, ncc, C, rng)` in the constrained variant) multiplied elementwise
with the tangent, i.e. `A_eps` contracted with the tangent (envelope
theorem). -/
theorem c3_jvp_max_envelope :
    ∀ (solver : Arr → ℕ → Arr × Arr) (csolver : Arr → ℕ → Arr → Arr × Arr)
      (num_samples : ℕ) (sigma : ℚ) (noise : Noise) (tangent : Arr)
      (vprimal : Arr × ℚ × Arr) (S : Arr) (ncc : ℕ) (C : Arr) (rng : ℕ),
      (pert_jvp solver num_samples sigma noise tangent vprimal S ncc rng).2.1 =
        dotQ ((forward_pert solver num_samples sigma noise S ncc rng).1).data
          tangent.data ∧
      (pert_jvp_c csolver num_samples sigma noise tangent vprimal S ncc C rng).2.1 =
        dotQ ((forward_pert_c csolver num_samples sigma noise S ncc C rng).1).data
          tangent.data :=
  fun _ _ _ _ _ _ _ _ _ _ _ => ⟨rfl, rfl⟩

/-- C5: determinism of the forward evaluation — the wrapped computation is a
pure function of its arguments (the noise draw depends only on `(seed, shape)`
and the solver is a pure function), so two calls on equal `S, ncc, rng` (and
`C` where applicable) return identical outputs. -/
theorem c5_forward_deterministic :
    ∀ (solver : Arr → ℕ → Arr × Arr) (csolver : Arr → ℕ → Arr → Arr × Arr)
      (num_samples : ℕ) (sigma : ℚ) (noise : Noise) (S S2 : Arr) (ncc ncc2 : ℕ)
      (C C2 : Arr) (rng rng2 : ℕ),
      S = S2 → ncc = ncc2 → C = C2 → rng = rng2 →
      forward_pert solver num_samples sigma noise S ncc rng =
        forward_pert solver num_samples sigma noise S2 ncc2 rng2 ∧
      forward_pert_c csolver num_samples sigma noise S ncc C rng =
        forward_pert_c csolver num_samples sigma noise S2 ncc2 C2 rng2 := by
  intro solver csolver num_samples sigma noise S S2 ncc ncc2 C C2 rng rng2 h1 h2 h3 h4
  subst h1
  subst h2
  subst h3
  subst h4
  exact ⟨rfl, rfl⟩

/-- C5 witness: the theorem applied at a concrete input. -/
theorem c5_forward_deterministic_witness :
    forward_pert idSolver 1 1 NormalNoise ⟨[1], [0]⟩ 1 0 =
      forward_pert idSolver 1 1 NormalNoise ⟨[1], [0]⟩ 1 0 ∧
    forward_pert_c idCsolver 1 1 NormalNoise ⟨[1], [0]⟩ 1 ⟨[1], [0]⟩ 0 =
      forward_pert_c idCsolver 1 1 NormalNoise ⟨[1], [0]⟩ 1 ⟨[1], [0]⟩ 0 :=
  c5_forward_deterministic idSolver idCsolver 1 1 NormalNoise ⟨[1], [0]⟩ ⟨[1], [0]⟩
    1 1 ⟨[1], [0]⟩ ⟨[1], [0]⟩ 0 0 rfl rfl rfl rfl

/-- C6: the sample batch and the per-sample solver outputs `(Ak_z, Mk_z)`
recomputed inside the custom derivative rule are identical to those computed
inside the forward evaluation on the same arguments, for both the
unconstrained and the constrained wrapper: the rule is self-contained and the
two independent draws from the same `rng` coincide. -/
theorem c6_jvp_recomputes_forward :
    (∀ (noise : Noise) (num_samples : ℕ) (S : Arr) (rng : ℕ),
      jvp_samples noise num_samples S rng = fwd_samples noise num_samples S rng) ∧
    (∀ (solver : Arr → ℕ → Arr × Arr) (noise : Noise) (num_samples : ℕ)
      (sigma : ℚ) (S : Arr) (ncc : ℕ) (rng : ℕ),
      jvp_batch solver noise num_samples sigma S ncc rng =
        fwd_batch solver noise num_samples sigma S ncc rng) ∧
    (∀ (noise : Noise) (num_samples : ℕ) (S : Arr) (rng : ℕ),
      jvp_samples_c noise num_samples S rng = fwd_samples_c noise num_samples S rng) ∧
    (∀ (csolver : Arr → ℕ → Arr → Arr × Arr) (noise : Noise) (num_samples : ℕ)
      (sigma : ℚ) (S : Arr) (ncc : ℕ) (C : Arr) (rng : ℕ),
      jvp_batch_c csolver noise num_samples sigma S ncc C rng =
        fwd_batch_c csolver noise num_samples sigma S ncc C rng) :=
  ⟨fun _ _ _ _ => rfl, fun _ _ _ _ _ _ _ => rfl, fun _ _ _ _ => rfl,
   fun _ _ _ _ _ _ _ _ => rfl⟩

/-- C8 (amended): `make_pert_solver` and `make_pert_csolver` perform no
validation whatsoever — for every `sigma` and `num_samples` (non-positive
included) construction succeeds and returns the forward/derivative pair
unconditionally; nothing fails at configuration time. -/
theorem c8_no_config_validation :
    ∀ (solver : Arr → ℕ → Arr × Arr) (csolver : Arr → ℕ → Arr → Arr × Arr)
      (num_samples : ℕ) (sigma : ℚ) (noise : Noise) (use_bias : Bool),
      make_pert_solver solver num_samples sigma noise =
        (forward_pert solver num_samples sigma noise,
         pert_jvp solver num_samples sigma noise) ∧
      make_pert_csolver csolver num_samples sigma noise use_bias =
        (forward_pert_c csolver num_samples sigma noise,
         pert_jvp_c csolver num_samples sigma noise) :=
  fun _ _ _ _ _ _ => ⟨rfl, rfl⟩

/-- C8 counterexample: a wrapper constructed with `sigma = 0` (non-positive)
is not rejected at configuration time; its forward evaluation runs and
returns an ordinary value on a concrete input. -/
theorem c8_counterexample :
    (make_pert_solver idSolver 1 0 NormalNoise).1 ⟨[1], [2]⟩ 1 0 =
      (⟨[1], [2]⟩, 4, ⟨[1], [2]⟩) := by
  norm_num [make_pert_solver, forward_pert, fwd_batch, fwd_inputs, fwd_samples,
    NormalNoise, normal_sample, rows, perturb, idSolver, meanArr, meanRows,
    sumRows, meanQ, dotQ, Arr.size, List.range_succ]

/-- C9: the constrained wrapper accepts the `use_bias` flag and its behaviour
does not depend on it — `use_bias` is not consulted anywhere in the
perturbation algorithm (it is a pass-through configuration knob for solver
construction, which happens outside this module). -/
theorem c9_use_bias_no_effect :
    ∀ (csolver : Arr → ℕ → Arr → Arr × Arr) (num_samples : ℕ) (sigma : ℚ)
      (noise : Noise) (b1 b2 : Bool),
      make_pert_csolver csolver num_samples sigma noise b1 =
        make_pert_csolver csolver num_samples sigma noise b2 :=
  fun _ _ _ _ _ _ => rfl

/-- C10: the default noise model: `log_prob(x) = -0.5 * x^2` elementwise, its
gradient (`dlog_prob`, the model of `jax.grad(log_prob)`) is `-x` and is the
true derivative of `log_prob`, so the negative gradient at `x` is `x`; and
`sample` returns data of the requested shape and is a pure function of
`(seed, shape)` — the same seed yields the same output. -/
theorem c10_normal_noise_spec :
    (∀ x : ℚ, NormalNoise.log_prob x = -(0.5 : ℚ) * x ^ 2) ∧
    (∀ x : ℚ, NormalNoise.dlog_prob x = -x) ∧
    (∀ x : ℚ, HasDerivAt NormalNoise.log_prob (NormalNoise.dlog_prob x) x) ∧
    (∀ x : ℚ, -(NormalNoise.dlog_prob x) = x) ∧
    (∀ (seed : ℕ) (shape : List ℕ),
      (NormalNoise.sample seed shape).length = shape.prod) ∧
    (∀ (s1 : ℕ) (sh1 : List ℕ) (s2 : ℕ) (sh2 : List ℕ), s1 = s2 → sh1 = sh2 →
      NormalNoise.sample s1 sh1 = NormalNoise.sample s2 sh2) :=
  ⟨fun _ => rfl, fun _ => rfl, NormalNoise.hgrad, fun x => neg_neg x,
   NormalNoise.sample_len, fun _ _ _ _ h1 h2 => by rw [h1, h2]⟩

/-- C10 witness: the theorem applied at concrete inputs, discharging the
equal-seed hypotheses. -/
theorem c10_normal_noise_spec_witness :
    -(NormalNoise.dlog_prob 3) = 3 ∧
    NormalNoise.sample 0 [2] = NormalNoise.sample 0 [2] :=
  ⟨c10_normal_noise_spec.2.2.2.1 3,
   c10_normal_noise_spec.2.2.2.2.2 0 [2] 0 [2] rfl rfl⟩

/-- C1: the forward evaluation returns the triple `(A_eps, F_eps, M_eps)`
given by the Monte-Carlo means of the claim — `A_eps` the mean of the per-
sample solver assignments on `S + sigma*Z`, `F_eps` the mean of the flattened
inner products `sum(flatten(S + sigma*Z_n) * flatten(Ak_z[n]))` (a scalar by
type), `M_eps` the mean of the per-sample connectivity outputs — and, for a
solver whose assignment output has its input's shape and whose connectivity
output has the fixed shape `Mshape`, the aggregate `A_eps` has exactly `S`'s
shape and `M_eps` has the connectivity shape `Mshape`. -/
theorem c1_forward_matches_spec (solver : Arr → ℕ → Arr × Arr) (num_samples : ℕ)
    (sigma : ℚ) (noise : Noise) (S : Arr) (ncc : ℕ) (rng : ℕ) (Mshape : List ℕ)
    (hns : 0 < num_samples) (hS : S.wf)
    (hA : ∀ X : Arr, X.wf →
      ((solver X ncc).1).shape = X.shape ∧
      ((solver X ncc).1).data.length = X.shape.prod)
    (hM : ∀ X : Arr, X.wf →
      ((solver X ncc).2).shape = Mshape ∧
      ((solver X ncc).2).data.length = Mshape.prod) :
    forward_pert solver num_samples sigma noise S ncc rng =
      (spec_A_eps solver noise num_samples sigma S ncc rng,
       spec_F_eps solver noise num_samples sigma S ncc rng,
       spec_M_eps solver noise num_samples sigma S ncc rng) ∧
    (forward_pert solver num_samples sigma noise S ncc rng).1.shape = S.shape ∧
    (forward_pert solver num_samples sigma noise S ncc rng).1.wf ∧
    (forward_pert solver num_samples sigma noise S ncc rng).2.2.shape = Mshape ∧
    (forward_pert solver num_samples sigma noise S ncc rng).2.2.data.length =
      Mshape.prod := by
  have hinputs := fwd_inputs_mem noise num_samples sigma S rng hS
  have hne : fwd_inputs noise num_samples sigma S rng ≠ [] := by
    have hl := fwd_inputs_length noise num_samples sigma S rng
    intro hnil
    rw [hnil] at hl
    simp at hl
    omega
  have hwfin : ∀ X ∈ fwd_inputs noise num_samples sigma S rng, X.wf := by
    intro X hX
    obtain ⟨hsh, hlen⟩ := hinputs X hX
    show X.data.length = X.shape.prod
    rw [hlen, hsh]
  have hAmean := meanArr_shape_len
    (l := (fwd_inputs noise num_samples sigma S rng).map (fun X => (solver X ncc).1))
    (s := S.shape) (L := S.shape.prod)
    (by intro hc; exact hne (List.map_eq_nil_iff.mp hc))
    (by
      intro a ha
      obtain ⟨X, hX, rfl⟩ := List.mem_map.mp ha
      obtain ⟨hsh, hlen⟩ := hA X (hwfin X hX)
      exact ⟨by rw [hsh, (hinputs X hX).1], by rw [hlen, (hinputs X hX).1]⟩)
  have hMmean := meanArr_shape_len
    (l := (fwd_inputs noise num_samples sigma S rng).map (fun X => (solver X ncc).2))
    (s := Mshape) (L := Mshape.prod)
    (by intro hc; exact hne (List.map_eq_nil_iff.mp hc))
    (by
      intro a ha
      obtain ⟨X, hX, rfl⟩ := List.mem_map.mp ha
      exact hM X (hwfin X hX))
  refine ⟨?_, hAmean.1, ?_, hMmean.1, hMmean.2⟩
  · show (meanArr _, meanQ _, meanArr _) =
      (spec_A_eps solver noise num_samples sigma S ncc rng,
       spec_F_eps solver noise num_samples sigma S ncc rng,
       spec_M_eps solver noise num_samples sigma S ncc rng)
    refine congrArg (Prod.mk _) (congrArg (fun z => Prod.mk z (meanArr _)) ?_)
    show meanQ _ = spec_F_eps solver noise num_samples sigma S ncc rng
    exact congrArg meanQ (zipWith_eq_map_zip _ _ _)
  · show (forward_pert solver num_samples sigma noise S ncc rng).1.data.length =
      (forward_pert solver num_samples sigma noise S ncc rng).1.shape.prod
    have h1 : (forward_pert solver num_samples sigma noise S ncc rng).1.shape =
        S.shape := hAmean.1
    rw [h1]
    exact hAmean.2

/-- C1 witness: the theorem applied at a concrete input with a solver whose
assignment output is its input and whose connectivity output has the fixed
shape `[2]`. -/
theorem c1_forward_matches_spec_witness :
    forward_pert mixSolver 1 1 NormalNoise ⟨[2], [1, 2]⟩ 1 0 =
      (spec_A_eps mixSolver NormalNoise 1 1 ⟨[2], [1, 2]⟩ 1 0,
       spec_F_eps mixSolver NormalNoise 1 1 ⟨[2], [1, 2]⟩ 1 0,
       spec_M_eps mixSolver NormalNoise 1 1 ⟨[2], [1, 2]⟩ 1 0) ∧
    (forward_pert mixSolver 1 1 NormalNoise ⟨[2], [1, 2]⟩ 1 0).1.shape = [2] ∧
    (forward_pert mixSolver 1 1 NormalNoise ⟨[2], [1, 2]⟩ 1 0).1.wf ∧
    (forward_pert mixSolver 1 1 NormalNoise ⟨[2], [1, 2]⟩ 1 0).2.2.shape = [2] ∧
    (forward_pert mixSolver 1 1 NormalNoise ⟨[2], [1, 2]⟩ 1 0).2.2.data.length =
      [2].prod :=
  c1_forward_matches_spec mixSolver 1 1 NormalNoise ⟨[2], [1, 2]⟩ 1 0 [2]
    (by decide) rfl
    (fun X hX => ⟨rfl, hX⟩)
    (fun X hX => ⟨rfl, rfl⟩)

/-- C2: the first component of the custom derivative rule equals
`(1 / (num_samples * sigma)) * Σ_n Ak_z[n] * (grad_log_noise[n] · flatten t)`
reshaped to `S`'s shape, where `Ak_z` are the per-sample solver outputs
recomputed on `S + sigma*samples` and `grad_log_noise` is the negative
gradient of the noise log-density at each flattened sample; both for the
unconstrained and the constrained rule. -/
theorem c2_jvp_argmax_formula :
    ∀ (solver : Arr → ℕ → Arr × Arr) (csolver : Arr → ℕ → Arr → Arr × Arr)
      (num_samples : ℕ) (sigma : ℚ) (noise : Noise) (tangent : Arr)
      (vprimal : Arr × ℚ × Arr) (S : Arr) (ncc : ℕ) (C : Arr) (rng : ℕ),
      (pert_jvp solver num_samples sigma noise tangent vprimal S ncc rng).1 =
        spec_jvp_A solver num_samples sigma noise tangent S ncc rng ∧
      (pert_jvp_c csolver num_samples sigma noise tangent vprimal S ncc C rng).1 =
        spec_jvp_A_c csolver num_samples sigma noise tangent S ncc C rng := by
  intro solver csolver num_samples sigma noise tangent vprimal S ncc C rng
  constructor
  · show Arr.mk S.shape _ = Arr.mk S.shape _
    refine congrArg (Arr.mk S.shape) ?_
    refine List.map_congr_left ?_
    intro d _
    refine congrArg (fun z => (1 / ((num_samples : ℚ) * sigma)) * z) ?_
    refine congrArg List.sum ?_
    refine List.map_congr_left ?_
    intro p _
    exact einsum_row (p.1.getD d 0) p.2 tangent.data
  · show Arr.mk S.shape _ = Arr.mk S.shape _
    refine congrArg (Arr.mk S.shape) ?_
    refine List.map_congr_left ?_
    intro d _
    refine congrArg (fun z => (1 / ((num_samples : ℚ) * sigma)) * z) ?_
    refine congrArg List.sum ?_
    refine List.map_congr_left ?_
    intro p _
    exact einsum_row (p.1.getD d 0) p.2 tangent.data

/-- C4 counterexample: the claim says the third output of the derivative rule
has `M_eps`'s shape, but the code returns `jnp.zeros_like(tangent)`; for a
solver whose connectivity output has a shape different from `S`'s, the
returned tangent's shape differs from `M_eps`'s shape. -/
theorem c4_mshape_counterexample :
    ((pert_jvp mixSolver 1 1 NormalNoise ⟨[1], [1]⟩ (⟨[], []⟩, 0, ⟨[], []⟩)
        ⟨[1], [0]⟩ 1 0).2.2).shape ≠
      ((forward_pert mixSolver 1 1 NormalNoise ⟨[1], [0]⟩ 1 0).2.2).shape := by
  decide

/-- C4 (amended): the third component of the derivative rule is always exactly
the all-zero tensor — concretely `jnp.zeros_like(tangent)`, of the tangent's
(that is, `S`'s) shape — for both variants, and no tangent is taken for
`ncc`, `rng`, or `C` at all (the rule is attached by
`defjvps(pert_jvp, None, None)`, so the only tangent argument is `S`'s);
whenever the solver's connectivity output has `S`'s shape and the tangent has
`S`'s shape, this zero tensor has exactly `M_eps`'s shape, so the triple
matches the forward output's structure. -/
theorem c4_zero_m_tangent :
    ∀ (solver : Arr → ℕ → Arr × Arr) (csolver : Arr → ℕ → Arr → Arr × Arr)
      (num_samples : ℕ) (sigma : ℚ) (noise : Noise) (tangent : Arr)
      (vprimal : Arr × ℚ × Arr) (S : Arr) (ncc : ℕ) (C : Arr) (rng : ℕ),
      ((pert_jvp solver num_samples sigma noise tangent vprimal S ncc rng).2.2 =
          ⟨tangent.shape, tangent.data.map (fun _ => 0)⟩ ∧
        (pert_jvp_c csolver num_samples sigma noise tangent vprimal S ncc C rng).2.2 =
          ⟨tangent.shape, tangent.data.map (fun _ => 0)⟩) ∧
      (∀ x ∈ ((pert_jvp solver num_samples sigma noise tangent vprimal S ncc rng).2.2).data,
        x = 0) ∧
      (0 < num_samples → S.wf → tangent.shape = S.shape →
        (∀ X : Arr, X.wf →
          ((solver X ncc).2).shape = S.shape ∧
          ((solver X ncc).2).data.length = S.shape.prod) →
        ((pert_jvp solver num_samples sigma noise tangent vprimal S ncc rng).2.2).shape =
          ((forward_pert solver num_samples sigma noise S ncc rng).2.2).shape) := by
  intro solver csolver num_samples sigma noise tangent vprimal S ncc C rng
  refine ⟨⟨rfl, rfl⟩, ?_, ?_⟩
  · intro x hx
    have hx2 : x ∈ tangent.data.map (fun _ => (0 : ℚ)) := hx
    obtain ⟨y, hy, rfl⟩ := List.mem_map.mp hx2
    rfl
  · intro hns hS ht hM
    have hinputs := fwd_inputs_mem noise num_samples sigma S rng hS
    have hne : fwd_inputs noise num_samples sigma S rng ≠ [] := by
      have hl := fwd_inputs_length noise num_samples sigma S rng
      intro hnil
      rw [hnil] at hl
      simp at hl
      omega
    have hwfin : ∀ X ∈ fwd_inputs noise num_samples sigma S rng, X.wf := by
      intro X hX
      obtain ⟨hsh, hlen⟩ := hinputs X hX
      show X.data.length = X.shape.prod
      rw [hlen, hsh]
    have hMmean := meanArr_shape_len
      (l := (fwd_inputs noise num_samples sigma S rng).map (fun X => (solver X ncc).2))
      (s := S.shape) (L := S.shape.prod)
      (by intro hc; exact hne (List.map_eq_nil_iff.mp hc))
      (by
        intro a ha
        obtain ⟨X, hX, rfl⟩ := List.mem_map.mp ha
        exact hM X (hwfin X hX))
    show tangent.shape =
      ((forward_pert solver num_samples sigma noise S ncc rng).2.2).shape
    rw [ht]
    exact hMmean.1.symm

/-- C4 witness: the amended theorem applied at a concrete input with a solver
whose connectivity output shape matches `S`'s shape. -/
theorem c4_zero_m_tangent_witness :
    ((pert_jvp constSolver 1 1 NormalNoise ⟨[1], [2]⟩ (⟨[], []⟩, 0, ⟨[], []⟩)
          ⟨[1], [3]⟩ 1 0).2.2 =
        ⟨[1], [(0 : ℚ)]⟩ ∧
      (pert_jvp_c idCsolver 1 1 NormalNoise ⟨[1], [2]⟩ (⟨[], []⟩, 0, ⟨[], []⟩)
          ⟨[1], [3]⟩ 1 ⟨[1], [0]⟩ 0).2.2 =
        ⟨[1], [(0 : ℚ)]⟩) ∧
    (∀ x ∈ ((pert_jvp constSolver 1 1 NormalNoise ⟨[1], [2]⟩ (⟨[], []⟩, 0, ⟨[], []⟩)
        ⟨[1], [3]⟩ 1 0).2.2).data, x = 0) ∧
    ((pert_jvp constSolver 1 1 NormalNoise ⟨[1], [2]⟩ (⟨[], []⟩, 0, ⟨[], []⟩)
        ⟨[1], [3]⟩ 1 0).2.2).shape =
      ((forward_pert constSolver 1 1 NormalNoise ⟨[1], [3]⟩ 1 0).2.2).shape := by
  have h := c4_zero_m_tangent constSolver idCsolver 1 1 NormalNoise ⟨[1], [2]⟩
    (⟨[], []⟩, 0, ⟨[], []⟩) ⟨[1], [3]⟩ 1 ⟨[1], [0]⟩ 0
  exact ⟨h.1, h.2.1, h.2.2 (by decide) rfl rfl (fun X hX => ⟨rfl, rfl⟩)⟩

/-- C7: constrained/unconstrained parity — if `csolver` ignores its constraint
argument and agrees with `solver`, the wrapper built by `make_pert_csolver`
produces exactly the same forward outputs and derivative-rule outputs as the
wrapper built by `make_pert_solver`, for every input and tangent. -/
theorem c7_constrained_parity (solver : Arr → ℕ → Arr × Arr)
    (csolver : Arr → ℕ → Arr → Arr × Arr) (num_samples : ℕ) (sigma : ℚ)
    (noise : Noise) (use_bias : Bool)
    (h : ∀ (S : Arr) (ncc : ℕ) (C : Arr), csolver S ncc C = solver S ncc) :
    ∀ (S : Arr) (ncc : ℕ) (C : Arr) (rng : ℕ) (tangent : Arr)
      (vprimal : Arr × ℚ × Arr),
      (make_pert_csolver csolver num_samples sigma noise use_bias).1 S ncc C rng =
        (make_pert_solver solver num_samples sigma noise).1 S ncc rng ∧
      (make_pert_csolver csolver num_samples sigma noise use_bias).2
          tangent vprimal S ncc C rng =
        (make_pert_solver solver num_samples sigma noise).2
          tangent vprimal S ncc rng := by
  intro S ncc C rng tangent vprimal
  constructor
  · show forward_pert_c csolver num_samples sigma noise S ncc C rng =
      forward_pert solver num_samples sigma noise S ncc rng
    simp only [forward_pert_c, forward_pert, fwd_batch_c, fwd_batch,
      fwd_inputs_c, fwd_inputs, fwd_samples_c, fwd_samples, h]
  · show pert_jvp_c csolver num_samples sigma noise tangent vprimal S ncc C rng =
      pert_jvp solver num_samples sigma noise tangent vprimal S ncc rng
    simp only [pert_jvp_c, pert_jvp, jvp_batch_c, jvp_batch, jvp_inputs_c,
      jvp_inputs, jvp_samples_c, jvp_samples, jvp_nabla_c, jvp_nabla, h]

/-- C7 witness: the parity theorem applied to a concrete constraint-ignoring
solver at a concrete input. -/
theorem c7_constrained_parity_witness :
    (make_pert_csolver idCsolver 2 1 NormalNoise true).1 ⟨[1], [5]⟩ 1 ⟨[1], [0]⟩ 0 =
      (make_pert_solver idSolver 2 1 NormalNoise).1 ⟨[1], [5]⟩ 1 0 ∧
    (make_pert_csolver idCsolver 2 1 NormalNoise true).2 ⟨[1], [1]⟩
        (⟨[], []⟩, 0, ⟨[], []⟩) ⟨[1], [5]⟩ 1 ⟨[1], [0]⟩ 0 =
      (make_pert_solver idSolver 2 1 NormalNoise).2 ⟨[1], [1]⟩
        (⟨[], []⟩, 0, ⟨[], []⟩) ⟨[1], [5]⟩ 1 0 :=
  c7_constrained_parity idSolver idCsolver 2 1 NormalNoise true
    (fun _ _ _ => rfl) ⟨[1], [5]⟩ 1 ⟨[1], [0]⟩ 0 ⟨[1], [1]⟩ (⟨[], []⟩, 0, ⟨[], []⟩)
